import Mathlib

/-!
Verification of the dialogue resolution engine of the ootsuki2 restaurant
chatbot, against its natural-language specification.

The Python sources are shallowly embedded: strings are Lean strings
manipulated as lists of characters, dictionaries are association lists in
insertion order, machine integers are Int, and fallible external calls are
Except values.  Unicode NFKC normalization is embedded as a character-wise
compatibility map over the character repertoire this system manipulates
(kana, ASCII, full-width punctuation); characters outside the modeled
repertoire are fixed points of the map.  Python str.lower is embedded as the
ASCII lowering it performs on that repertoire (Japanese characters are fixed
points of str.lower).
-/

/-! ## String primitives

Python substring containment (the `in` operator), suffix test and
character-set strip, over the underlying character lists. -/

/-- Python `needle in hay`: contiguous-substring containment. -/
def strContains (hay needle : String) : Bool :=
  decide (needle.data <:+: hay.data)

/-- Python `s.endswith(suffix)`. -/
def strEndsWith (s suffix : String) : Bool :=
  decide (suffix.data <:+ s.data)

/-- Python `s.rstrip(chars)`: drop trailing characters belonging to the set. -/
def rstripSet (s : String) (set : List Char) : String :=
  ⟨(s.data.reverse.dropWhile (fun c => decide (c ∈ set))).reverse⟩

/-- Python `s.lower()` restricted to the modeled repertoire: ASCII uppercase
letters are lowered, every other character is unchanged (as in CPython for
kana and ASCII). -/
def strLower (s : String) : String :=
  ⟨s.data.map Char.toLower⟩

/-! ## Normalizer: `_normalize_text` (src/core/simple_graph_engine.py)

The pipeline is: NFKC normalization; unification of full-width punctuation
(`，。？！` to `,.?!`); katakana-to-hiragana folding via the explicit
translation table of the source; unification of `,，、` to `,`; removal of
spaces and of the characters `-` and `・`.  Every stage acts character by
character, so the whole pipeline is embedded as one character step mapped
over the string. -/

/-- Character-wise model of `unicodedata.normalize("NFKC", _)` on the modeled
repertoire: full-width space and full-width ASCII punctuation fold to their
ASCII forms; the ideographic punctuation `。`, `、` and `・` and all kana have
no compatibility decomposition and are unchanged (as under real NFKC). -/
def nfkcTable : List (Char × List Char) :=
  [('　', [' ']), ('\xa0', [' ']), ('，', [',']), ('．', ['.']), ('？', ['?']),
   ('！', ['!']), ('：', [':']), ('；', [';']), ('（', ['(']), ('）', [')'])] ++
    ((List.range 26).map fun i =>
      (Char.ofNat (0xFF21 + i), [Char.ofNat (65 + i)])) ++
    ((List.range 26).map fun i =>
      (Char.ofNat (0xFF41 + i), [Char.ofNat (97 + i)])) ++
    ((List.range 10).map fun i =>
      (Char.ofNat (0xFF10 + i), [Char.ofNat (48 + i)]))

def nfkcChar (c : Char) : List Char :=
  match nfkcTable.find? (fun p => p.1 == c) with
  | some p => p.2
  | none => [c]

/-- The four explicit replaces of the source:
`replace('，', ',').replace('。', '.').replace('？', '?').replace('！', '!')`. -/
def punctTable : List (Char × Char) :=
  [('，', ','), ('。', '.'), ('？', '?'), ('！', '!')]

/-- Source translation table of `str.maketrans`: the katakana row. -/
def kataSrc : String :=
  "アイウエオカキクケコサシスセソタチツテトナニヌネノハヒフヘホマミムメモヤユヨラリルレロワヲンガギグゲゴザジズゼゾダヂヅデドバビブベボパピプペポァィゥェォャュョッ"

/-- Source translation table of `str.maketrans`: the hiragana row. -/
def hiraDst : String :=
  "あいうえおかきくけこさしすせそたちつてとなにぬねのはひふへほまみむめもやゆよらりるれろわをんがぎぐげござじずぜぞだぢづでどばびぶべぼぱぴぷぺぽぁぃぅぇぉゃゅょっ"

def kataHiraTable : List (Char × Char) :=
  kataSrc.data.zip hiraDst.data

/-- Character class of `re.sub(r"[,，、]", ",", _)`. -/
def commaTable : List (Char × Char) :=
  [(',', ','), ('，', ','), ('、', ',')]

/-- The characters removed by
`replace(" ", "").replace("　", "").replace("-", "").replace("・", "")`. -/
def removedChars : List Char :=
  [' ', '　', '-', '・']

def tblLookup (t : List (Char × Char)) (c : Char) : Char :=
  match t.find? (fun p => p.1 == c) with
  | some p => p.2
  | none => c

/-- One character of the `_normalize_text` pipeline. -/
def charStep (c : Char) : List Char :=
  ((nfkcChar c).map
      (fun d => tblLookup commaTable (tblLookup kataHiraTable (tblLookup punctTable d)))).filter
    (fun d => !decide (d ∈ removedChars))

def normChars : List Char → List Char
  | [] => []
  | c :: cs => charStep c ++ normChars cs

/-- Embedding of `SimpleGraphEngine._normalize_text`. -/
def normalizeText (s : String) : String :=
  if s = "" then s else ⟨normChars s.data⟩

/-! Idempotence machinery for `normalizeText`. -/

/-- All characters at which some stage of the pipeline is not the identity. -/
def normSpecialChars : List Char :=
  nfkcTable.map Prod.fst ++ punctTable.map Prod.fst ++ kataSrc.data ++
    commaTable.map Prod.fst ++ removedChars

/-- Embedding of `TextNormalizer._to_katakana`, one character:
`chr(ord(c) + 96) if "あ" <= c <= "ん" else c`. -/
def hiraToKataChar (c : Char) : Char :=
  if 'あ' ≤ c ∧ c ≤ 'ん' then Char.ofNat (c.toNat + 96) else c

/-- Character class of `re.sub(r"[、・,]", ",", _)`. -/
def termCommaTable : List (Char × Char) :=
  [('、', ','), ('・', ','), (',', ',')]

/-- Whitespace recognized by Python `\s` and `str.strip`, restricted to the
modeled repertoire. -/
def pyWsChars : List Char :=
  [' ', '\t', '\n', '\r', '\x0b', '\x0c', '\x85', '\xa0', '　']

def pyIsWs (c : Char) : Bool := decide (c ∈ pyWsChars)

/-- One character of the `normalize_term` pipeline before whitespace
handling: NFKC, then katakana conversion, then lowering, then comma
unification. -/
def gStep (c : Char) : List Char :=
  (nfkcChar c).map (fun d => tblLookup termCommaTable (Char.toLower (hiraToKataChar d)))

def gChars : List Char → List Char
  | [] => []
  | c :: cs => gStep c ++ gChars cs

/-- Model of `re.sub(r"\s+", " ", _)`: collapse every whitespace run to one space.
The flag records whether the previous character belonged to a run. -/
def collapseWsAux : Bool → List Char → List Char
  | _, [] => []
  | prev, c :: cs =>
    if pyIsWs c then
      if prev then collapseWsAux true cs else ' ' :: collapseWsAux true cs
    else c :: collapseWsAux false cs

/-- Python `str.strip()`. -/
def stripChars (l : List Char) : List Char :=
  ((l.dropWhile pyIsWs).reverse.dropWhile pyIsWs).reverse

/-- Embedding of `TextNormalizer.normalize_term`. -/
def normalizeTerm (s : String) : String :=
  if s = "" then "" else ⟨stripChars (collapseWsAux false (gChars s.data))⟩

/-! Idempotence machinery for `normalizeTerm`. -/

def upperChars : List Char := (List.range 26).map (fun i => Char.ofNat (65 + i))

def hiraRangeChars : List Char := (List.range 82).map (fun i => Char.ofNat (0x3042 + i))

/-- All characters at which some stage of the `normalize_term` pipeline is not
the identity. -/
def termSpecialChars : List Char :=
  nfkcTable.map Prod.fst ++ hiraRangeChars ++ upperChars ++ termCommaTable.map Prod.fst

/-- No two adjacent whitespace characters. -/
def noWsPair (a b : Char) : Prop := ¬(pyIsWs a = true ∧ pyIsWs b = true)

/-! ## Resolver: `_find_node_by_keywords` (src/core/simple_graph_engine.py)

Nodes are the dictionaries produced by
`NotionClientWrapper.get_conversation_nodes`; the resolver reads the fields
name, keywords, subcategory, priority and implementation class, with the
same defaults as the `.get` calls of the source.  A node dictionary is an
entry (node id, node data) and a snapshot is the association list of entries
in insertion order. -/

structure NodeData where
  name : String := ""
  keywords : List String := []
  subcategory : String := ""
  priority : Option Int := none
  implementationClass : String := ""
  template : String := ""
  category : String := ""
deriving DecidableEq, Repr

/-- Spelling-variant table of `_expand_keywords`. -/
def variations : List (String × List String) :=
  [("定食", ["ていしょく", "セット", "せっと"]),
   ("おすすめ定食", ["おすすめ", "おすすめセット", "お勧め定食", "お薦め定食", "推奨定食", "人気定食"]),
   ("日替わり", ["日替わりランチ", "本日の定食", "今日の定食", "デイリー"]),
   ("刺身", ["さしみ", "お刺身", "刺し身", "造り", "お造り"]),
   ("海鮮刺身", ["海鮮", "かいせん", "海の幸", "魚介"]),
   ("丼", ["どんぶり", "どん", "丼物", "ライス"]),
   ("海鮮丼", ["かいせん丼", "海の幸丼", "魚介丼"]),
   ("寿司", ["すし", "お寿司", "にぎり", "握り", "鮨", "鮓"]),
   ("寿司ランチ", ["すしランチ", "寿司セット", "寿司定食", "にぎりランチ"]),
   ("揚げ物", ["あげもの", "フライ", "揚物"]),
   ("唐揚げ", ["からあげ", "から揚げ", "空揚げ", "竜田揚げ"]),
   ("天ぷら", ["てんぷら", "天麩羅", "天婦羅"]),
   ("ドリンク", ["飲み物", "のみもの", "お飲物", "ドリンクメニュー", "飲料"]),
   ("お酒", ["酒", "さけ", "アルコール", "日本酒", "焼酎", "ビール"]),
   ("ビール", ["びーる", "生ビール", "生", "draft"]),
   ("メニュー", ["めにゅー", "品書き", "お品書き", "料理", "食事"]),
   ("ランチ", ["らんち", "昼食", "お昼", "lunch"]),
   ("予約", ["よやく", "reservation", "予約したい", "席を取りたい"]),
   ("店舗情報", ["店の情報", "お店の情報", "営業時間", "場所", "アクセス", "住所", "電話番号"]),
   ("テイクアウト", ["持ち帰り", "お持ち帰り", "弁当", "お弁当"]),
   ("まぐろ", ["マグロ", "鮪", "tuna"]),
   ("サーモン", ["さーもん", "鮭", "しゃけ", "salmon"]),
   ("鯛", ["たい", "タイ", "真鯛"]),
   ("あじ", ["アジ", "鯵", "あじ刺", "アジ刺"]),
   ("いか", ["イカ", "烏賊"]),
   ("ぶり", ["ブリ", "鰤"])]

/-- Embedding of `_expand_keywords`: copy the keyword list, then append, for every keyword
present in the variant table, each variant not yet listed. -/
def expandKeywords (kws : List String) : List String :=
  kws.foldl
    (fun exp kw =>
      match variations.find? (fun p => p.1 == kw) with
      | some p => p.2.foldl (fun e v => if v ∈ e then e else e ++ [v]) exp
      | none => exp)
    kws

/-- Python `str.split()` with no separator: split on whitespace runs,
dropping empty pieces. -/
def splitWsChars : List Char → List Char → List (List Char)
  | [], acc => if acc = [] then [] else [acc.reverse]
  | c :: cs, acc =>
    if pyIsWs c then
      (if acc = [] then splitWsChars cs [] else acc.reverse :: splitWsChars cs [])
    else splitWsChars cs (c :: acc)

def splitWs (s : String) : List String :=
  (splitWsChars s.data []).map String.mk

/-- Trigger phrases of the year-end-party block of `_find_node_by_keywords`. -/
def bonenkaiKeywords : List String :=
  ["忘年会", "忘新年会", "会社の忘年会", "職場の忘年会",
   "忘年会プラン", "忘年会メニュー", "忘年会コース",
   "年末の宴会", "年末飲み会", "年末"]

/-- Trigger phrases of the osechi block of `_find_node_by_keywords`. -/
def osechiKeywords : List String :=
  ["おせち", "お節", "おせち料理", "正月料理", "おせち予約",
   "おせち注文", "おせちいつまで", "おせち受け取り",
   "年末料理", "年末オードブル", "年末オードブル予約"]

/-- The year-end-party check: some trigger phrase, normalized, occurs in the
normalized input. -/
def hasBonenkaiTrigger (ni : String) : Bool :=
  bonenkaiKeywords.any (fun kw => strContains ni (normalizeText (strLower kw)))

/-- The carve-out of the osechi check: the input mentions オードブル but not
年末オードブル.  (The normalized input never contains raw katakana, so this
flag is never set; it is kept because the source computes it.) -/
def isOrdoruburuOnly (ni : String) : Bool :=
  strContains ni "オードブル" && !(strContains ni "年末オードブル")

/-- The osechi check: unless the carve-out applies, some trigger phrase,
normalized, occurs in the normalized input. -/
def hasOsechiTrigger (ni : String) : Bool :=
  !isOrdoruburuOnly ni &&
    osechiKeywords.any (fun kw => strContains ni (normalizeText (strLower kw)))

/-- The keyword loop of `_find_node_by_keywords` over the expanded keywords:
accumulated score and length of the longest matched keyword. -/
def keywordScan (ni : String) (kws : List String) : Int × Nat :=
  kws.foldl
    (fun acc kw =>
      let nk := normalizeText (strLower kw)
      if nk = ni then (acc.1 + 50, max acc.2 nk.length)
      else if strContains ni nk then (acc.1 + 25, max acc.2 nk.length)
      else if strContains nk ni && decide (2 ≤ ni.length) then
        (acc.1 + 20, max acc.2 ni.length)
      else acc)
    (0, 0)

/-- Name, keyword and subcategory score of one node: the accumulation of
`_find_node_by_keywords` before the category-exclusivity block. -/
def matchScore (ni : String) (nd : NodeData) : Int :=
  let nn := normalizeText (strLower nd.name)
  let nameHit : Int := if strContains ni nn || strContains nn ni then 100 else 0
  let wordHits : Int :=
    30 * ((splitWs nn).filter
      (fun w => w ≠ "" && decide (2 ≤ w.length) && strContains ni w)).length
  let subHit : Int :=
    if nd.subcategory ≠ "" then
      (let ns := normalizeText (strLower nd.subcategory)
       if strContains ni ns || strContains ns ni then 15 else 0)
    else 0
  nameHit + wordHits + (keywordScan ni (expandKeywords nd.keywords)).1 + subHit

/-- Length bonus of one node: three points per character of the longest
matched keyword. -/
def lengthBonus (ni : String) (nd : NodeData) : Int :=
  let lg := (keywordScan ni (expandKeywords nd.keywords)).2
  if 0 < lg then (lg : Int) * 3 else 0

/-- Implementation-class bonus. -/
def classBonus (nd : NodeData) : Int :=
  if nd.implementationClass = "BanquetEntryNode" then 5 else 0

/-- Full score of one entry (node id, node data) as accumulated by
`_find_node_by_keywords`, including the category-exclusivity adjustment and
the priority bonus with its two weights. -/
def nodeScore (ni : String) (e : String × NodeData) : Int :=
  let hasB := hasBonenkaiTrigger ni
  let hasO := hasOsechiTrigger ni
  let bonenkaiBonus : Int := if e.1 = "bonenkai_intro" ∧ hasB = true then 100 else 0
  let bonenkaiPenalty : Int := if e.1 = "bonenkai_intro" ∧ hasB = false then -1000 else 0
  let osechiBonus : Int := if e.1 = "osechi_info" ∧ hasO = true then 200 else 0
  let osechiPenalty : Int := if e.1 = "osechi_info" ∧ hasO = false then -1000 else 0
  let pv : Int := e.2.priority.getD 99
  let priorityBonus : Int :=
    if 0 < bonenkaiBonus ∨ 0 < osechiBonus then (10 - pv) * 2 else (10 - pv) * 3
  matchScore ni e.2 + bonenkaiPenalty + osechiPenalty + priorityBonus +
    bonenkaiBonus + osechiBonus + lengthBonus ni e.2 + classBonus e.2

/-- Score a node would receive with no category-exclusivity adjustment and
the regular priority weight: the generic part of the accumulation. -/
def plainNodeScore (ni : String) (nd : NodeData) : Int :=
  matchScore ni nd + (10 - nd.priority.getD 99) * 3 + lengthBonus ni nd + classBonus nd

/-- The selection loop: keep the first entry whose score strictly exceeds the
best score so far, starting from no entry and score 0. -/
def findBestAux (ni : String) :
    List (String × NodeData) → Option (String × NodeData) → Int →
      Option (String × NodeData) × Int
  | [], best, bs => (best, bs)
  | e :: rest, best, bs =>
    if bs < nodeScore ni e then findBestAux ni rest (some e) (nodeScore ni e)
    else findBestAux ni rest best bs

/-- Embedding of `_find_node_by_keywords`, refined to return the winning entry (node id
and node data). -/
def findNodeEntry (userInput : String) (nodes : List (String × NodeData)) :
    Option (String × NodeData) :=
  let ni := normalizeText (strLower userInput)
  let r := findBestAux ni nodes none 0
  if 0 < r.2 then r.1 else none

/-- Embedding of `_find_node_by_keywords`: the source returns only the node data of the
winning entry. -/
def findNodeByKeywords (userInput : String) (nodes : List (String × NodeData)) :
    Option NodeData :=
  (findNodeEntry userInput nodes).map Prod.snd

/-- Refinement of the specification sentence for the priority bonus: the
claim says every node receives `(10 - priority) * 3`; this definition is
`nodeScore` with that weight applied unconditionally, for comparison with
the source scoring. -/
def specPriorityNodeScore (ni : String) (e : String × NodeData) : Int :=
  let hasB := hasBonenkaiTrigger ni
  let hasO := hasOsechiTrigger ni
  let bonenkaiBonus : Int := if e.1 = "bonenkai_intro" ∧ hasB = true then 100 else 0
  let bonenkaiPenalty : Int := if e.1 = "bonenkai_intro" ∧ hasB = false then -1000 else 0
  let osechiBonus : Int := if e.1 = "osechi_info" ∧ hasO = true then 200 else 0
  let osechiPenalty : Int := if e.1 = "osechi_info" ∧ hasO = false then -1000 else 0
  let pv : Int := e.2.priority.getD 99
  let priorityBonus : Int := (10 - pv) * 3
  matchScore ni e.2 + bonenkaiPenalty + osechiPenalty + priorityBonus +
    bonenkaiBonus + osechiBonus + lengthBonus ni e.2 + classBonus e.2

/-! ## CrossSellAdvisor: `_add_cross_sell_text` (src/core/simple_graph_engine.py) -/

/-- The target node ids of the cross-sell enrichment. -/
def targetNodeIds : List String :=
  ["chicken_kushi_katsu_2", "pork_kushi_katsu_2", "tako_karaage",
   "kasago_karaage_numazu", "aji_fry_3"]

/-- The one suggestion sentence. -/
def crossSellText : String := "熊本県直送の馬刺し赤身もご一緒にいかがですか？"

/-- Embedding of `_add_cross_sell_text`: for target nodes whose text does not already
contain the suggestion sentence, strip trailing 。 and ！, append the
sentence, and close with a question when no closing punctuation remains. -/
def addCrossSellText (responseText : String) (nodeId : Option String) : String :=
  if responseText = "" then responseText
  else if (match nodeId with
           | some nid => decide (nid ∈ targetNodeIds)
           | none => false) = false then responseText
  else if strContains responseText crossSellText then responseText
  else
    let base :=
      if strEndsWith responseText "。" || strEndsWith responseText "！" then
        rstripSet responseText ['。', '！']
      else responseText
    let appended := base ++ " " ++ crossSellText
    if !(["？", "?", "。", "！"].any fun p => strEndsWith appended p) then
      appended ++ "どちらにされますか？"
    else appended

/-! ## NodeGraph: `ConversationNodeSystem.get_conversation_nodes`
(src/core/conversation_node_system.py)

The cached load over the Notion catalog.  External state is passed
explicitly: the cache and its expiry live in a state record, the clock is a
timestamp in seconds, and the catalog fetch is an Except value so that a
raised exception is an error value. -/

/-- One node dictionary as fetched from the catalog; only the id is read by
the loader. -/
structure FetchedNode where
  id : String := ""
  data : NodeData := {}
deriving DecidableEq, Repr

/-- Cache state of `ConversationNodeSystem`. -/
structure CNState where
  cache : List (String × FetchedNode) := []
  cacheExpiry : Option Nat := none
deriving DecidableEq, Repr

/-- Python dict assignment `d[k] = v`: replace in place when the key exists,
append otherwise. -/
def dictInsert (d : List (String × FetchedNode)) (k : String) (v : FetchedNode) :
    List (String × FetchedNode) :=
  if d.any (fun p => p.1 == k) then
    d.map (fun p => if p.1 == k then (k, v) else p)
  else d ++ [(k, v)]

/-- The dictionary build loop of `get_conversation_nodes`: keep nodes whose
id is non-empty. -/
def buildNodeDict (nodes : List FetchedNode) : List (String × FetchedNode) :=
  nodes.foldl (fun d nd => if nd.id ≠ "" then dictInsert d nd.id nd else d) []

/-- Cache TTL of five minutes, in seconds. -/
def cacheTtl : Nat := 300

/-- Embedding of `ConversationNodeSystem.get_conversation_nodes`.  Returns the node
dictionary and the updated state.  `hasClient` and `hasConfig` model the two
falsiness guards, `dbId` the configured database id, and `fetch` the Notion
call, whose raised exception is the error case and is caught by the
surrounding handler, which returns an empty dictionary. -/
def cacheFresh (st : CNState) (now : Nat) : Bool :=
  decide (st.cache ≠ []) &&
    (match st.cacheExpiry with
     | some e => decide (now < e)
     | none => false)

def getConversationNodes (st : CNState) (now : Nat) (hasClient hasConfig : Bool)
    (dbId : Option String) (fetch : Except String (List FetchedNode)) :
    List (String × FetchedNode) × CNState :=
  if cacheFresh st now then
    (st.cache, st)
  else if ¬(hasClient ∧ hasConfig) then ([], st)
  else
    match dbId with
    | none => ([], st)
    | some nid =>
      if nid = "" then ([], st)
      else
        match fetch with
        | Except.error _ => ([], st)
        | Except.ok nodes =>
          let d := buildNodeDict nodes
          (d, { cache := d, cacheExpiry := some (now + cacheTtl) })

/-! ## FlowController: `NotionGraphEngine` (src/core/notion_graph_engine.py)

The LangGraph state machine: notion_node with conditional routing to itself,
fallback_response or end_flow; fallback_response returns unconditionally to
notion_node; end_flow reaches END.  External calls of the engine are an
oracle record; the node-execution call returns an Except whose error case is
the raised exception caught by the handler. -/

structure UserInput where
  inputType : String
  value : String
deriving DecidableEq, Repr

structure RunResult where
  message : String := ""
  options : List String := []
  endFlag : Bool := false
deriving DecidableEq, Repr

structure EngineNode where
  nodeId : String := ""
  nodeName : String := ""
  isEndNode : Bool := false
  nodeType : String := ""
deriving DecidableEq, Repr

/-- Conversation state of the graph (the `State` TypedDict).  The step
counter is absent until `notion_node` first initializes it. -/
structure GState where
  messages : List String := []
  intent : String := ""
  response : String := ""
  options : List String := []
  shouldPush : Bool := false
  sessionId : String := ""
  currentNodeId : String := ""
  stepCount : Option Nat := none
deriving DecidableEq, Repr

/-- External collaborators of `NotionGraphEngine`: the start-node lookup,
the node execution (an Except: a raised exception is the error case), node
lookup and transition lookup. -/
structure NotionOracle where
  getStartNode : Option EngineNode
  runNode : String → UserInput → Except String RunResult
  getNodeById : String → Option EngineNode
  getNextNode : EngineNode → UserInput → Option EngineNode

/-- The option list of `_parse_user_input`. -/
def notionOptionList : List String :=
  ["ランチ", "夜メニュー", "土曜日限定ランチ",
   "日替わりランチはこちら", "寿司ランチはこちら", "おすすめ定食はこちら",
   "海鮮定食はこちら", "定食屋メニューはこちら", "逸品料理はこちら",
   "今晩のおすすめ一品はこちら", "ビール", "日本酒", "焼酎", "ワイン",
   "お酒に合うつまみ", "メニューを見る", "おすすめを教えて", "ビールください"]

/-- Embedding of `NotionGraphEngine._parse_user_input`. -/
def parseUserInput (s : GState) : UserInput :=
  match s.messages.getLast? with
  | none => ⟨"text", ""⟩
  | some lastMessage =>
    if lastMessage ∈ notionOptionList then ⟨"option", lastMessage⟩
    else ⟨"text", lastMessage⟩

/-- The generic apology of `_handle_error`. -/
def apologyText : String := "申し訳ございません。システムエラーが発生しました。"

/-- The safe default options of `_handle_error`. -/
def defaultOptions : List String := ["メニューを見る", "おすすめを教えて", "ビールください"]

/-- Embedding of `NotionGraphEngine._handle_error`: the error message argument is only
logged; the state receives the generic apology, the default options and the
fallback intent. -/
def handleError (s : GState) (_errorMessage : String) : GState :=
  { s with response := apologyText, options := defaultOptions,
           shouldPush := true, intent := "fallback" }

/-- The overload message passed (and then discarded) by the step-cap branch
of `notion_node`. -/
def overloadMessage : String := "会話が長すぎます。最初からやり直してください。"

/-- Embedding of `NotionGraphEngine.notion_node`. -/
def notionNode (o : NotionOracle) (s : GState) : GState :=
  let sc := s.stepCount.getD 0 + 1
  let s := { s with stepCount := some sc }
  if 20 < sc then handleError s overloadMessage
  else
    let startResolved : Option (String × GState) :=
      if s.currentNodeId = "" then
        match o.getStartNode with
        | none => none
        | some start => some (start.nodeId, { s with currentNodeId := start.nodeId })
      else some (s.currentNodeId, s)
    match startResolved with
    | none => handleError s "開始ノードが見つかりません"
    | some (cid, s) =>
      let ui := parseUserInput s
      match o.runNode cid ui with
      | Except.error e => handleError s ("システムエラー: " ++ e)
      | Except.ok result =>
        let s := { s with response := result.message, options := result.options,
                          shouldPush := true }
        match o.getNodeById cid with
        | none => { s with intent := "fallback" }
        | some node =>
          if node.isEndNode || node.nodeType == "end" then { s with intent := "end" }
          else if result.endFlag then { s with intent := "end" }
          else
            match o.getNextNode node ui with
            | some nxt => { s with currentNodeId := nxt.nodeId, intent := "continue" }
            | none => { s with intent := "fallback" }

/-- Embedding of `NotionGraphEngine.fallback_response`. -/
def fallbackResponse (s : GState) : GState :=
  match s.messages.getLast? with
  | some lastMessage =>
    let s :=
      if strContains lastMessage "ランチ" then
        { s with response := "ランチメニューをご案内いたします。",
                 options := ["日替わりランチはこちら", "おすすめ定食はこちら", "寿司ランチはこちら"] }
      else if strContains lastMessage "夜メニュー" || strContains lastMessage "夜のメニュー" then
        { s with response := "夜メニューをご案内いたします。",
                 options := ["おすすめ定食はこちら", "海鮮定食はこちら", "逸品料理はこちら"] }
      else if strContains lastMessage "ビール" || strContains lastMessage "酒" then
        { s with response := "アルコールメニューをご案内いたします。",
                 options := ["ビール", "日本酒", "焼酎", "ワイン"] }
      else
        { s with response := "申し訳ございません。もう少し詳しく教えていただけますか？",
                 options := ["メニューを見る", "おすすめを教えて", "ビールください"] }
    { s with shouldPush := true, intent := "continue" }
  | none =>
    { s with response := "いらっしゃいませ！本日は何にいたしましょうか？",
             options := ["ランチ", "夜メニュー", "土曜日限定ランチ"],
             shouldPush := true, intent := "continue" }

/-- Embedding of `NotionGraphEngine.end_flow`. -/
def endFlow (s : GState) : GState :=
  if s.response = "" then { s with response := "ご注文が決まりましたらお声がけください。" }
  else s

/-- Embedding of `NotionGraphEngine.route_from_notion`. -/
def routeFromNotion (s : GState) : String :=
  if s.intent = "end" then "end"
  else if s.intent = "fallback" then "fallback"
  else "continue"

/-- Positions in the compiled graph. -/
inductive GraphPos
  | notionPos
  | fallbackPos
  | endPos
  | finished
deriving DecidableEq, Repr

/-- One transition of the compiled graph: the conditional edges from
notion_node, the unconditional edge from fallback_response back to
notion_node, and the edge from end_flow to END. -/
def graphStep (o : NotionOracle) : GraphPos × GState → GraphPos × GState
  | (GraphPos.notionPos, s) =>
    let s2 := notionNode o s
    (if routeFromNotion s2 = "end" then GraphPos.endPos
     else if routeFromNotion s2 = "fallback" then GraphPos.fallbackPos
     else GraphPos.notionPos, s2)
  | (GraphPos.fallbackPos, s) => (GraphPos.notionPos, fallbackResponse s)
  | (GraphPos.endPos, s) => (GraphPos.finished, endFlow s)
  | (GraphPos.finished, s) => (GraphPos.finished, s)

/-- Run the graph for a number of transitions from a configuration. -/
def runGraph (o : NotionOracle) : Nat → GraphPos × GState → GraphPos × GState
  | 0, c => c
  | k + 1, c => runGraph o k (graphStep o c)

/-! ## ProactiveScheduler decision gate: `proactive_recommend` and
`_collect_context` (src/core/simple_graph_engine.py, src/core/scheduler.py) -/

/-- The time-band classification of `_collect_context`: lunch for hours
11 to 13; every other hour of the day falls into the dinner band (the
comment of the source claims the contrary but the second branch covers
hours 14 to 23 and 0 to 10). -/
def timeZoneOf (hour : Nat) : String :=
  if 11 ≤ hour ∧ hour < 14 then "lunch"
  else if (14 ≤ hour ∧ hour < 24) ∨ hour < 11 then "dinner"
  else "other"

/-- The season classification of `_collect_context`. -/
def seasonOf (month : Nat) : String :=
  if month = 3 ∨ month = 4 ∨ month = 5 then "春"
  else if month = 6 ∨ month = 7 ∨ month = 8 then "夏"
  else if month = 9 ∨ month = 10 ∨ month = 11 then "秋"
  else "冬"

/-- State of the simple graph engine as far as the proactive node reads and
writes it. -/
structure SState where
  messages : List String := []
  intent : String := ""
  response : String := ""
  options : List String := []
  shouldPush : Bool := false
  sessionId : String := ""
deriving DecidableEq, Repr

/-- Embedding of `SimpleGraphEngine.proactive_recommend`: the wall clock enters through
the hour and month read by `_collect_context`. -/
def proactiveRecommend (hour month : Nat) (s : SState) : SState :=
  let tz := timeZoneOf hour
  let season := seasonOf month
  if tz = "lunch" then
    { s with response := "🍱 お昼の時間ですね。" ++ season ++ "のランチメニューはいかがですか？",
             options := ["日替わりランチはこちら", "寿司ランチはこちら", "おすすめ定食はこちら"],
             shouldPush := true }
  else if tz = "dinner" then
    { s with response := "🍶 夜のメニューもございます。" ++ season ++ "の旬の食材を使った料理はいかがですか？",
             options := ["今晩のおすすめ一品はこちら", "おすすめ定食はこちら", "逸品料理はこちら", "お酒に合うつまみ"],
             shouldPush := true }
  else
    { s with shouldPush := false }

/-! ## Demonstration data for concrete evaluations. -/

/-- A minimal year-end-party node: no keywords, no subcategory, no
priority. -/
def bonenkaiDemo : NodeData := { name := "x" }

/-- A minimal osechi node of the same shape. -/
def osechiDemo : NodeData := { name := "x" }

/-- A two-node snapshot holding the exclusive pair. -/
def demoNodes : List (String × NodeData) :=
  [("bonenkai_intro", bonenkaiDemo), ("osechi_info", osechiDemo)]

/-- The normalized utterance 忘年会 (year-end party). -/
def demoNiB : String := normalizeText (strLower "忘年会")

/-- The normalized utterance おせち (new-year dishes). -/
def demoNiO : String := normalizeText (strLower "おせち")

/-! ## Claim theorems for the loader, the state machine and the proactive
gate. -/

/-- A snapshot state whose cache holds one node but whose TTL is expired at
time 20. -/
def staleState : CNState := { cache := [("n1", { id := "n1" })], cacheExpiry := some 10 }

/-- The same snapshot state with an unexpired TTL at time 20. -/
def freshState : CNState := { cache := [("n1", { id := "n1" })], cacheExpiry := some 100 }

/-- Configurations of the graph in which the step counter has reached the
cap while control sits in the notion-or-fallback loop. -/
def cappedConfig : GraphPos × GState → Prop
  | (p, s) => (p = GraphPos.notionPos ∨ p = GraphPos.fallbackPos) ∧ 20 ≤ s.stepCount.getD 0

/-- An oracle whose node execution always fails. -/
def demoOracle : NotionOracle :=
  { getStartNode := none, runNode := fun _ _ => Except.error "x",
    getNodeById := fun _ => none, getNextNode := fun _ _ => none }

/-- A session state whose step counter sits at the cap. -/
def cappedState : GState := { stepCount := some 20 }

/-! ## Theorems. -/

theorem strContains_iff {hay needle : String} :
    strContains hay needle = true ↔ needle.data <:+: hay.data := by
  simp [strContains]

theorem strEndsWith_iff {s suffix : String} :
    strEndsWith s suffix = true ↔ suffix.data <:+ s.data := by
  simp [strEndsWith]

theorem tblLookup_eq_self {t : List (Char × Char)} {c : Char}
    (h : c ∉ t.map Prod.fst) : tblLookup t c = c := by
  unfold tblLookup
  have : t.find? (fun p => p.1 == c) = none := by
    rw [List.find?_eq_none]
    intro p hp
    simp only [beq_iff_eq]
    intro hq
    exact h (List.mem_map.mpr ⟨p, hp, hq⟩)
  rw [this]

theorem nfkcChar_eq_self {c : Char} (h : c ∉ nfkcTable.map Prod.fst) :
    nfkcChar c = [c] := by
  unfold nfkcChar
  have : nfkcTable.find? (fun p => p.1 == c) = none := by
    rw [List.find?_eq_none]
    intro p hp
    simp only [beq_iff_eq]
    intro hq
    exact h (List.mem_map.mpr ⟨p, hp, hq⟩)
  rw [this]

theorem charStep_eq_self {c : Char} (h : c ∉ normSpecialChars) :
    charStep c = [c] := by
  have h1 : c ∉ nfkcTable.map Prod.fst := fun hc =>
    h (by simp [normSpecialChars, hc])
  have h2 : c ∉ punctTable.map Prod.fst := fun hc =>
    h (by simp [normSpecialChars, hc])
  have h3 : c ∉ kataSrc.data := fun hc =>
    h (by simp [normSpecialChars, hc])
  have h4 : c ∉ commaTable.map Prod.fst := fun hc =>
    h (by simp [normSpecialChars, hc])
  have h5 : c ∉ removedChars := fun hc =>
    h (by simp [normSpecialChars, hc])
  have h3' : c ∉ kataHiraTable.map Prod.fst := by
    intro hc
    apply h3
    rcases List.mem_map.mp hc with ⟨p, hp, hq⟩
    have := List.of_mem_zip hp
    exact hq ▸ this.1
  unfold charStep
  rw [nfkcChar_eq_self h1]
  simp only [List.map_cons, List.map_nil,
    tblLookup_eq_self h2, tblLookup_eq_self h3', tblLookup_eq_self h4]
  simp [h5]

theorem normChars_append (l₁ l₂ : List Char) :
    normChars (l₁ ++ l₂) = normChars l₁ ++ normChars l₂ := by
  induction l₁ with
  | nil => rfl
  | cons c cs ih => simp [normChars, ih]

/-- Kernel check that the pipeline maps every special character to a string of
characters that the pipeline leaves alone. -/
theorem normSpecial_stable :
    (normSpecialChars.all fun c => normChars (charStep c) == charStep c) = true := by
  decide

theorem normChars_charStep (c : Char) : normChars (charStep c) = charStep c := by
  by_cases hc : c ∈ normSpecialChars
  · have := List.all_eq_true.mp normSpecial_stable c hc
    exact eq_of_beq this
  · rw [charStep_eq_self hc]
    simp [normChars, charStep_eq_self hc]

theorem normChars_idem (l : List Char) : normChars (normChars l) = normChars l := by
  induction l with
  | nil => rfl
  | cons c cs ih =>
    simp only [normChars, normChars_append, ih, normChars_charStep]

theorem normalizeText_idem (s : String) :
    normalizeText (normalizeText s) = normalizeText s := by
  unfold normalizeText
  by_cases h : s = ""
  · simp [h]
  · simp only [if_neg h]
    by_cases h2 : (⟨normChars s.data⟩ : String) = ""
    · simp [h2]
    · simp only [if_neg h2]
      exact congrArg String.mk (normChars_idem s.data)

/-! ## Normalizer: `TextNormalizer.normalize_term`
(src/core/conversation_node_system.py)

The pipeline is: NFKC normalization; hiragana-to-katakana conversion via a
code-point shift of 96 on the range あ..ん; ASCII lowering; unification of
`、・,` to `,`; collapsing of whitespace runs to one space; edge trim. -/

theorem char_le_toNat {a c : Char} (h : a ≤ c) : a.toNat ≤ c.toNat :=
  BitVec.le_def.mp (UInt32.le_def.mp (Char.le_def.mp h))

theorem char_toNat_le {a c : Char} (h : a.toNat ≤ c.toNat) : a ≤ c :=
  Char.le_def.mpr (UInt32.le_def.mpr (BitVec.le_def.mpr h))

theorem collapseWsAux_cons (b : Bool) (c : Char) (cs : List Char) :
    collapseWsAux b (c :: cs) =
      if pyIsWs c then
        (if b then collapseWsAux true cs else ' ' :: collapseWsAux true cs)
      else c :: collapseWsAux false cs := rfl

theorem hiraToKataChar_eq_self {c : Char} (h : c ∉ hiraRangeChars) :
    hiraToKataChar c = c := by
  unfold hiraToKataChar
  rw [if_neg]
  intro ⟨h1, h2⟩
  apply h
  have e1 : ('あ' : Char).toNat = 0x3042 := rfl
  have e2 : ('ん' : Char).toNat = 0x3093 := rfl
  have n1 : 0x3042 ≤ c.toNat := e1 ▸ char_le_toNat h1
  have n2 : c.toNat ≤ 0x3093 := e2 ▸ char_le_toNat h2
  refine List.mem_map.mpr ⟨c.toNat - 0x3042, List.mem_range.mpr (by omega), ?_⟩
  have e3 : 0x3042 + (c.toNat - 0x3042) = c.toNat := by omega
  rw [e3, Char.ofNat_toNat]

theorem toLower_eq_self {c : Char} (h : c ∉ upperChars) : Char.toLower c = c := by
  unfold Char.toLower
  rw [if_neg]
  intro ⟨h1, h2⟩
  apply h
  refine List.mem_map.mpr ⟨c.toNat - 65, List.mem_range.mpr (by omega), ?_⟩
  have e3 : 65 + (c.toNat - 65) = c.toNat := by omega
  rw [e3, Char.ofNat_toNat]

theorem gStep_eq_self {c : Char} (h : c ∉ termSpecialChars) : gStep c = [c] := by
  have h1 : c ∉ nfkcTable.map Prod.fst := fun hc => h (by simp [termSpecialChars, hc])
  have h2 : c ∉ hiraRangeChars := fun hc => h (by simp [termSpecialChars, hc])
  have h3 : c ∉ upperChars := fun hc => h (by simp [termSpecialChars, hc])
  have h4 : c ∉ termCommaTable.map Prod.fst := fun hc => h (by simp [termSpecialChars, hc])
  unfold gStep
  rw [nfkcChar_eq_self h1]
  simp only [List.map_cons, List.map_nil, hiraToKataChar_eq_self h2,
    toLower_eq_self h3, tblLookup_eq_self h4]

/-- Kernel check that the `normalize_term` character pipeline maps every
special character to characters that the pipeline leaves alone. -/
theorem termSpecial_stable :
    (termSpecialChars.all fun c => (gStep c).all fun d => gStep d == [d]) = true := by
  decide

theorem gStep_stable {c d : Char} (hd : d ∈ gStep c) : gStep d = [d] := by
  by_cases hc : c ∈ termSpecialChars
  · exact eq_of_beq (List.all_eq_true.mp (List.all_eq_true.mp termSpecial_stable c hc) d hd)
  · rw [gStep_eq_self hc] at hd
    simp only [List.mem_singleton] at hd
    subst hd
    exact gStep_eq_self hc

theorem gChars_mem {l : List Char} {d : Char} (h : d ∈ gChars l) :
    ∃ c ∈ l, d ∈ gStep c := by
  induction l with
  | nil => cases h
  | cons c cs ih =>
    simp only [gChars, List.mem_append] at h
    rcases h with h | h
    · exact ⟨c, List.mem_cons_self c cs, h⟩
    · obtain ⟨c', hc', hd⟩ := ih h
      exact ⟨c', List.mem_cons_of_mem c hc', hd⟩

theorem gChars_eq_self {l : List Char} (h : ∀ d ∈ l, gStep d = [d]) :
    gChars l = l := by
  induction l with
  | nil => rfl
  | cons c cs ih =>
    simp only [gChars, h c (List.mem_cons_self c cs)]
    simp [ih (fun d hd => h d (List.mem_cons_of_mem c hd))]

theorem collapse_mem {d : Char} :
    ∀ (b : Bool) (l : List Char), d ∈ collapseWsAux b l →
      d = ' ' ∨ (d ∈ l ∧ pyIsWs d = false) := by
  intro b l
  induction l generalizing b with
  | nil => intro h; cases h
  | cons c cs ih =>
    intro h
    rw [collapseWsAux_cons] at h
    by_cases hw : pyIsWs c = true
    · rw [if_pos hw] at h
      cases b with
      | true =>
        rw [if_pos rfl] at h
        rcases ih true h with h1 | ⟨h1, h2⟩
        · exact Or.inl h1
        · exact Or.inr ⟨List.mem_cons_of_mem c h1, h2⟩
      | false =>
        rw [if_neg (by simp)] at h
        rcases List.mem_cons.mp h with h1 | h1
        · exact Or.inl h1
        · rcases ih true h1 with h2 | ⟨h2, h3⟩
          · exact Or.inl h2
          · exact Or.inr ⟨List.mem_cons_of_mem c h2, h3⟩
    · rw [if_neg hw] at h
      rcases List.mem_cons.mp h with h1 | h1
      · subst h1
        exact Or.inr ⟨List.mem_cons_self d cs, Bool.not_eq_true _ ▸ hw⟩
      · rcases ih false h1 with h2 | ⟨h2, h3⟩
        · exact Or.inl h2
        · exact Or.inr ⟨List.mem_cons_of_mem c h2, h3⟩

theorem collapse_chain' :
    ∀ (l : List Char),
      (∀ b, List.Chain' noWsPair (collapseWsAux b l)) ∧
        (∀ d ∈ (collapseWsAux true l).head?, pyIsWs d = false) := by
  intro l
  induction l with
  | nil => exact ⟨fun _ => List.chain'_nil, fun d hd => by cases hd⟩
  | cons c cs ih =>
    by_cases hw : pyIsWs c = true
    · constructor
      · intro b
        cases b with
        | true =>
          rw [collapseWsAux_cons, if_pos hw, if_pos rfl]
          exact ih.1 true
        | false =>
          rw [collapseWsAux_cons, if_pos hw, if_neg (by simp)]
          refine List.chain'_cons'.mpr ⟨?_, ih.1 true⟩
          intro y hy
          intro ⟨_, hy2⟩
          rw [ih.2 y hy] at hy2
          cases hy2
      · intro d hd
        rw [collapseWsAux_cons, if_pos hw, if_pos rfl] at hd
        exact ih.2 d hd
    · constructor
      · intro b
        rw [collapseWsAux_cons, if_neg hw]
        refine List.chain'_cons'.mpr ⟨?_, ih.1 false⟩
        intro y hy
        intro ⟨hc2, _⟩
        exact hw hc2
      · intro d hd
        rw [collapseWsAux_cons, if_neg hw] at hd
        simp only [List.head?_cons, Option.mem_def, Option.some.injEq] at hd
        subst hd
        exact Bool.not_eq_true _ ▸ hw

theorem collapse_fix :
    ∀ (l : List Char), (∀ d ∈ l, pyIsWs d = true → d = ' ') →
      List.Chain' noWsPair l →
      collapseWsAux false l = l ∧
        ((∀ d ∈ l.head?, pyIsWs d = false) → collapseWsAux true l = l) := by
  intro l
  induction l with
  | nil => exact fun _ _ => ⟨rfl, fun _ => rfl⟩
  | cons c cs ih =>
    intro hsp hch
    have hcs := ih (fun d hd => hsp d (List.mem_cons_of_mem c hd))
      (List.chain'_cons'.mp hch).2
    by_cases hw : pyIsWs c = true
    · have hc : c = ' ' := hsp c (List.mem_cons_self c cs) hw
      have hhead : ∀ d ∈ cs.head?, pyIsWs d = false := by
        intro d hd
        have := (List.chain'_cons'.mp hch).1 d hd
        by_cases hwd : pyIsWs d = true
        · exact absurd ⟨hw, hwd⟩ this
        · exact Bool.not_eq_true _ ▸ hwd
      constructor
      · rw [collapseWsAux_cons, if_pos hw, if_neg (by simp), hcs.2 hhead, hc]
      · intro hh
        have := hh c (by simp)
        rw [this] at hw
        cases hw
    · refine ⟨?_, fun _ => ?_⟩ <;>
        rw [collapseWsAux_cons, if_neg hw, hcs.1]

theorem strip_isInfix (l : List Char) : stripChars l <:+: l := by
  unfold stripChars
  have hA : l.dropWhile pyIsWs <:+ l := List.dropWhile_suffix pyIsWs
  have hB : (l.dropWhile pyIsWs).reverse.dropWhile pyIsWs <:+
      (l.dropWhile pyIsWs).reverse := List.dropWhile_suffix pyIsWs
  have hp : ((l.dropWhile pyIsWs).reverse.dropWhile pyIsWs).reverse <+:
      l.dropWhile pyIsWs := by
    have := hB.reverse
    rwa [List.reverse_reverse] at this
  have h1 := List.IsPrefix.isInfix hp
  have h2 := List.IsSuffix.isInfix hA
  exact List.IsInfix.trans h1 h2

theorem head_of_isPrefixOf_ne {l₁ l₂ : List Char} (h : l₁ <+: l₂) (h1 : l₁ ≠ []) :
    l₁.head? = l₂.head? := by
  obtain ⟨r, hr⟩ := h
  subst hr
  cases l₁ with
  | nil => exact absurd rfl h1
  | cons a t => rfl

theorem dropWhile_head?_not (p : Char → Bool) (l : List Char) {d : Char}
    (hd : (l.dropWhile p).head? = some d) : p d = false := by
  have hne : l.dropWhile p ≠ [] := by
    intro he
    rw [he] at hd
    cases hd
  have h1 := List.head_dropWhile_not p l hne
  have h2 := List.head?_eq_head hne
  rw [hd] at h2
  rw [Option.some.inj h2]
  exact h1

theorem strip_head_ws (l : List Char) :
    ∀ d ∈ (stripChars l).head?, pyIsWs d = false := by
  intro d hd
  have hne : stripChars l ≠ [] := by
    intro he
    rw [he] at hd
    cases hd
  have hsuf : (l.dropWhile pyIsWs).reverse.dropWhile pyIsWs <:+
      (l.dropWhile pyIsWs).reverse := List.dropWhile_suffix pyIsWs
  have hp : stripChars l <+: l.dropWhile pyIsWs := by
    have h2 := hsuf.reverse
    rwa [List.reverse_reverse] at h2
  have hh : (stripChars l).head? = (l.dropWhile pyIsWs).head? :=
    head_of_isPrefixOf_ne hp hne
  rw [Option.mem_def, hh] at hd
  exact dropWhile_head?_not pyIsWs l hd

theorem strip_last_ws (l : List Char) :
    ∀ d ∈ (stripChars l).getLast?, pyIsWs d = false := by
  intro d hd
  have he : (stripChars l).getLast? =
      ((l.dropWhile pyIsWs).reverse.dropWhile pyIsWs).head? := by
    unfold stripChars
    rw [List.getLast?_reverse]
  rw [Option.mem_def, he] at hd
  exact dropWhile_head?_not pyIsWs _ hd

theorem dropWhile_eq_self_of_head {l : List Char} (h : ∀ d ∈ l.head?, pyIsWs d = false) :
    l.dropWhile pyIsWs = l := by
  cases l with
  | nil => rfl
  | cons a t =>
    rw [List.dropWhile_cons, if_neg]
    rw [h a (by simp)]
    simp

theorem strip_idem (l : List Char) : stripChars (stripChars l) = stripChars l := by
  have h1 : (stripChars l).dropWhile pyIsWs = stripChars l :=
    dropWhile_eq_self_of_head (strip_head_ws l)
  have h2 : (stripChars l).reverse.dropWhile pyIsWs = (stripChars l).reverse := by
    apply dropWhile_eq_self_of_head
    intro d hd
    rw [Option.mem_def, List.head?_reverse] at hd
    exact strip_last_ws l d hd
  show (((stripChars l).dropWhile pyIsWs).reverse.dropWhile pyIsWs).reverse = stripChars l
  rw [h1, h2, List.reverse_reverse]

theorem normalizeTerm_idem (s : String) :
    normalizeTerm (normalizeTerm s) = normalizeTerm s := by
  unfold normalizeTerm
  by_cases h : s = ""
  · simp [h]
  · simp only [if_neg h]
    by_cases h2 : (⟨stripChars (collapseWsAux false (gChars s.data))⟩ : String) = ""
    · simp [h2]
    · simp only [if_neg h2]
      apply congrArg String.mk
      set m := gChars s.data with hm
      set t : List Char := stripChars (collapseWsAux false m) with ht
      have hmemt : ∀ d ∈ t, d = ' ' ∨ (d ∈ m ∧ pyIsWs d = false) := by
        intro d hd
        exact collapse_mem false m ((strip_isInfix (collapseWsAux false m)).sublist.mem hd)
      have hstepA : gChars t = t := by
        apply gChars_eq_self
        intro d hd
        rcases hmemt d hd with h3 | ⟨h3, _⟩
        · subst h3
          decide
        · obtain ⟨c, _, hdc⟩ := gChars_mem h3
          exact gStep_stable hdc
      have hstepB : collapseWsAux false t = t := by
        refine (collapse_fix t ?_ ?_).1
        · intro d hd hwd
          rcases hmemt d hd with h3 | ⟨_, h3⟩
          · exact h3
          · rw [hwd] at h3; cases h3
        · have hch := (collapse_chain' m).1 false
          exact List.Chain'.infix hch (strip_isInfix (collapseWsAux false m))
      rw [hstepA, hstepB, ht, strip_idem]

/-! Characterization of the selection loop. -/

theorem findBestAux_cons (ni : String) (e : String × NodeData)
    (rest : List (String × NodeData)) (best : Option (String × NodeData)) (bs : Int) :
    findBestAux ni (e :: rest) best bs =
      if bs < nodeScore ni e then findBestAux ni rest (some e) (nodeScore ni e)
      else findBestAux ni rest best bs := rfl

theorem findBestAux_spec (ni : String) :
    ∀ (l : List (String × NodeData)) (best : Option (String × NodeData)) (bs : Int),
      (findBestAux ni l best bs = (best, bs) ∧ ∀ e ∈ l, nodeScore ni e ≤ bs) ∨
      (∃ i e, l.get? i = some e ∧
        findBestAux ni l best bs = (some e, nodeScore ni e) ∧
        bs < nodeScore ni e ∧
        (∀ j e2, l.get? j = some e2 → nodeScore ni e2 ≤ nodeScore ni e) ∧
        (∀ j e2, j < i → l.get? j = some e2 → nodeScore ni e2 < nodeScore ni e)) := by
  intro l
  induction l with
  | nil =>
    intro best bs
    exact Or.inl ⟨rfl, fun e he => absurd he (List.not_mem_nil e)⟩
  | cons e rest ih =>
    intro best bs
    by_cases h : bs < nodeScore ni e
    · have hstep : findBestAux ni (e :: rest) best bs =
          findBestAux ni rest (some e) (nodeScore ni e) := by
        rw [findBestAux_cons]
        exact if_pos h
      rcases ih (some e) (nodeScore ni e) with ⟨heq, hall⟩ | ⟨i, e2, hget, heq, hlt, hall, hfirst⟩
      · refine Or.inr ⟨0, e, rfl, ?_, h, ?_, ?_⟩
        · rw [hstep, heq]
        · intro j e2 hj
          cases j with
          | zero =>
            rw [List.get?_cons_zero] at hj
            rw [← Option.some.inj hj]
          | succ j =>
            rw [List.get?_cons_succ] at hj
            exact hall e2 (List.get?_mem hj)
        · intro j e2 hj
          cases hj
      · refine Or.inr ⟨i + 1, e2, ?_, ?_, lt_trans h hlt, ?_, ?_⟩
        · rw [List.get?_cons_succ]
          exact hget
        · rw [hstep, heq]
        · intro j e3 hj
          cases j with
          | zero =>
            rw [List.get?_cons_zero] at hj
            rw [← Option.some.inj hj]
            exact le_of_lt hlt
          | succ j =>
            rw [List.get?_cons_succ] at hj
            exact hall j e3 hj
        · intro j e3 hjlt hj
          cases j with
          | zero =>
            rw [List.get?_cons_zero] at hj
            rw [← Option.some.inj hj]
            exact hlt
          | succ j =>
            rw [List.get?_cons_succ] at hj
            exact hfirst j e3 (Nat.lt_of_succ_lt_succ hjlt) hj
    · have hstep : findBestAux ni (e :: rest) best bs = findBestAux ni rest best bs := by
        rw [findBestAux_cons]
        exact if_neg h
      rcases ih best bs with ⟨heq, hall⟩ | ⟨i, e2, hget, heq, hlt, hall, hfirst⟩
      · refine Or.inl ⟨by rw [hstep, heq], ?_⟩
        intro e2 he2
        rcases List.mem_cons.mp he2 with h1 | h1
        · rw [h1]
          exact le_of_not_lt h
        · exact hall e2 h1
      · refine Or.inr ⟨i + 1, e2, ?_, by rw [hstep, heq], hlt, ?_, ?_⟩
        · rw [List.get?_cons_succ]
          exact hget
        · intro j e3 hj
          cases j with
          | zero =>
            rw [List.get?_cons_zero] at hj
            rw [← Option.some.inj hj]
            exact le_of_lt (lt_of_le_of_lt (le_of_not_lt h) hlt)
          | succ j =>
            rw [List.get?_cons_succ] at hj
            exact hall j e3 hj
        · intro j e3 hjlt hj
          cases j with
          | zero =>
            rw [List.get?_cons_zero] at hj
            rw [← Option.some.inj hj]
            exact lt_of_le_of_lt (le_of_not_lt h) hlt
          | succ j =>
            rw [List.get?_cons_succ] at hj
            exact hfirst j e3 (Nat.lt_of_succ_lt_succ hjlt) hj

theorem findNodeEntry_some {u : String} {nodes : List (String × NodeData)}
    {e : String × NodeData} (h : findNodeEntry u nodes = some e) :
    (∃ i, nodes.get? i = some e) ∧
      0 < nodeScore (normalizeText (strLower u)) e := by
  simp only [findNodeEntry] at h
  rcases findBestAux_spec (normalizeText (strLower u)) nodes none 0 with
    ⟨heq, _⟩ | ⟨i, e2, hget, heq, hlt, _, _⟩
  · rw [heq] at h
    simp at h
  · rw [heq] at h
    by_cases hpos : (0 : Int) < nodeScore (normalizeText (strLower u)) e2
    · rw [if_pos hpos] at h
      have he : e2 = e := Option.some.inj h
      subst he
      exact ⟨⟨i, hget⟩, hpos⟩
    · rw [if_neg hpos] at h
      cases h

theorem nodeScore_osechi_of_no_trigger {ni : String} {nd : NodeData}
    (h : hasOsechiTrigger ni = false) :
    nodeScore ni ("osechi_info", nd) = plainNodeScore ni nd - 1000 := by
  simp only [nodeScore, plainNodeScore]
  simp [h]
  try ring

theorem nodeScore_bonenkai_of_no_trigger {ni : String} {nd : NodeData}
    (h : hasBonenkaiTrigger ni = false) :
    nodeScore ni ("bonenkai_intro", nd) = plainNodeScore ni nd - 1000 := by
  simp only [nodeScore, plainNodeScore]
  simp [h]
  try ring

theorem nodeScore_of_generic {ni : String} {e : String × NodeData}
    (h1 : e.1 ≠ "bonenkai_intro") (h2 : e.1 ≠ "osechi_info") :
    nodeScore ni e = plainNodeScore ni e.2 := by
  simp only [nodeScore, plainNodeScore]
  simp [h1, h2]
  try ring

/-! ## Claim theorems. -/

/-- C9: text normalization is idempotent and total: for every input string,
normalizing twice equals normalizing once, for both normalizers of the
sources (`_normalize_text` of the engine and `normalize_term` of the node
system); both are total Lean functions, so no input fails. -/
theorem normalize_idempotent (x : String) :
    normalizeText (normalizeText x) = normalizeText x ∧
      normalizeTerm (normalizeTerm x) = normalizeTerm x :=
  ⟨normalizeText_idem x, normalizeTerm_idem x⟩

/-- C4: the resolver scores exactly the nodes of the snapshot it is given and
returns the node of maximum score; ties break in favor of the first-seen
entry in insertion order; when every node scores at most zero (in particular
on zero overlap) it returns none. -/
theorem resolver_argmax (u : String) (nodes : List (String × NodeData)) :
    (findNodeByKeywords u nodes = none ↔
      ∀ e ∈ nodes, nodeScore (normalizeText (strLower u)) e ≤ 0) ∧
    (∀ nd, findNodeByKeywords u nodes = some nd →
      ∃ i e, nodes.get? i = some e ∧ e.2 = nd ∧
        0 < nodeScore (normalizeText (strLower u)) e ∧
        (∀ j e2, nodes.get? j = some e2 →
          nodeScore (normalizeText (strLower u)) e2 ≤
            nodeScore (normalizeText (strLower u)) e) ∧
        (∀ j e2, j < i → nodes.get? j = some e2 →
          nodeScore (normalizeText (strLower u)) e2 <
            nodeScore (normalizeText (strLower u)) e)) := by
  rcases findBestAux_spec (normalizeText (strLower u)) nodes none 0 with
    ⟨heq, hall⟩ | ⟨i, e2, hget, heq, hlt, hall, hfirst⟩
  · constructor
    · constructor
      · intro _ e he
        exact hall e he
      · intro _
        simp [findNodeByKeywords, findNodeEntry, heq]
    · intro nd hnd
      exfalso
      simp [findNodeByKeywords, findNodeEntry, heq] at hnd
  · constructor
    · constructor
      · intro hnone
        exfalso
        simp [findNodeByKeywords, findNodeEntry, heq, hlt] at hnone
      · intro hle
        exact absurd (hle e2 (List.get?_mem hget)) (not_le.mpr hlt)
    · intro nd hnd
      refine ⟨i, e2, hget, ?_, hlt, hall, hfirst⟩
      simp [findNodeByKeywords, findNodeEntry, heq, hlt] at hnd
      exact hnd

/-- C4 witness: on a greeting with zero overlap against the demonstration
snapshot, the resolver returns none. -/
theorem resolver_argmax_witness :
    findNodeByKeywords "こんにちは" demoNodes = none :=
  (resolver_argmax "こんにちは" demoNodes).1.mpr (by decide)

/-- C1 counterexample: the utterance 年末料理 contains the year-end-party
trigger phrase 年末, yet the resolver returns the osechi node: the penalty
on the osechi node is applied only when the utterance contains none of the
osechi triggers, and 年末料理 is itself an osechi trigger, so the osechi
node instead receives its bonus and wins. -/
theorem exclusivity_counterexample :
    strContains (normalizeText (strLower "年末料理")) (normalizeText (strLower "年末")) = true ∧
    hasBonenkaiTrigger (normalizeText (strLower "年末料理")) = true ∧
    findNodeEntry "年末料理" demoNodes = some ("osechi_info", osechiDemo) := by
  refine ⟨by decide, by decide, by decide⟩

/-- C1 amended: for an utterance containing a year-end-party trigger and
none of the osechi triggers, the osechi node receives the fixed penalty of
1000 points; consequently, whenever the remaining scoring components of
every osechi entry total at most 1000, the resolver never returns an entry
keyed osechi_info. -/
theorem exclusivity_amended (u : String) (nodes : List (String × NodeData)) :
    hasBonenkaiTrigger (normalizeText (strLower u)) = true →
    hasOsechiTrigger (normalizeText (strLower u)) = false →
    (∀ nd, nodeScore (normalizeText (strLower u)) ("osechi_info", nd) =
      plainNodeScore (normalizeText (strLower u)) nd - 1000) ∧
    ((∀ nd, ("osechi_info", nd) ∈ nodes →
        plainNodeScore (normalizeText (strLower u)) nd ≤ 1000) →
      ∀ e, findNodeEntry u nodes = some e → e.1 ≠ "osechi_info") := by
  intro _ hO
  constructor
  · intro nd
    exact nodeScore_osechi_of_no_trigger hO
  · intro hbound e he hid
    obtain ⟨⟨i, hget⟩, hpos⟩ := findNodeEntry_some he
    obtain ⟨id, nd⟩ := e
    simp only at hid
    subst hid
    have hmem : ("osechi_info", nd) ∈ nodes := List.get?_mem hget
    have hb := hbound nd hmem
    have hsc : nodeScore (normalizeText (strLower u)) ("osechi_info", nd) =
        plainNodeScore (normalizeText (strLower u)) nd - 1000 :=
      nodeScore_osechi_of_no_trigger hO
    rw [hsc] at hpos
    omega

/-- C1 amended witness: at the utterance 忘年会 the hypotheses hold for the
demonstration snapshot and the osechi node is scored a full 1000 points
below its generic score. -/
theorem exclusivity_amended_witness :
    nodeScore (normalizeText (strLower "忘年会")) ("osechi_info", osechiDemo) =
      plainNodeScore (normalizeText (strLower "忘年会")) osechiDemo - 1000 :=
  ((exclusivity_amended "忘年会" demoNodes (by decide) (by decide)).1 osechiDemo)

/-- C7 counterexample: when the utterance triggers the year-end-party bonus,
the priority weight drops to two, so the bonenkai node scores -78 where an
unconditional weight of three (the claim) would give -167. -/
theorem priority_bonus_counterexample :
    nodeScore demoNiB ("bonenkai_intro", bonenkaiDemo) ≠
      specPriorityNodeScore demoNiB ("bonenkai_intro", bonenkaiDemo) ∧
    nodeScore demoNiB ("bonenkai_intro", bonenkaiDemo) = -78 ∧
    specPriorityNodeScore demoNiB ("bonenkai_intro", bonenkaiDemo) = -167 := by
  refine ⟨by decide, by decide, by decide⟩

/-- C7 amended: every node other than the two exclusivity nodes receives the
priority bonus (10 - priority) * 3 with priority defaulting to 99; the two
exclusivity nodes receive (10 - priority) * 2 instead whenever their
category bonus fires (equivalently, their score is the generic score plus
the bonus minus one priority weight). -/
theorem priority_bonus_amended (ni id : String) (nd : NodeData) :
    (id ≠ "bonenkai_intro" → id ≠ "osechi_info" →
      nodeScore ni (id, nd) = plainNodeScore ni nd ∧
      nodeScore ni (id, nd) = specPriorityNodeScore ni (id, nd)) ∧
    (nodeScore ni (id, nd) =
      nodeScore ni (id, { nd with priority := some (nd.priority.getD 99) })) ∧
    (hasBonenkaiTrigger ni = true →
      nodeScore ni ("bonenkai_intro", nd) =
        plainNodeScore ni nd + 100 - (10 - nd.priority.getD 99)) ∧
    (hasOsechiTrigger ni = true →
      nodeScore ni ("osechi_info", nd) =
        plainNodeScore ni nd + 200 - (10 - nd.priority.getD 99)) := by
  refine ⟨?_, ?_, ?_, ?_⟩
  · intro h1 h2
    constructor
    · exact nodeScore_of_generic h1 h2
    · simp only [nodeScore, specPriorityNodeScore]
      simp [h1, h2]
  · rfl
  · intro h
    simp only [nodeScore, plainNodeScore]
    simp [h]
    ring
  · intro h
    simp only [nodeScore, plainNodeScore]
    simp [h]
    ring

/-- C7 witness: concrete instances of the three behaviors: a generic node
gets the weight of three, and each exclusivity node with its trigger present
gets the reduced weight. -/
theorem priority_bonus_witness :
    nodeScore demoNiB ("x", bonenkaiDemo) = plainNodeScore demoNiB bonenkaiDemo ∧
    nodeScore demoNiB ("bonenkai_intro", bonenkaiDemo) =
      plainNodeScore demoNiB bonenkaiDemo + 100 - (10 - bonenkaiDemo.priority.getD 99) ∧
    nodeScore demoNiO ("osechi_info", osechiDemo) =
      plainNodeScore demoNiO osechiDemo + 200 - (10 - osechiDemo.priority.getD 99) :=
  ⟨((priority_bonus_amended demoNiB "x" bonenkaiDemo).1 (by decide) (by decide)).1,
   (priority_bonus_amended demoNiB "bonenkai_intro" bonenkaiDemo).2.2.1 (by decide),
   (priority_bonus_amended demoNiO "osechi_info" osechiDemo).2.2.2 (by decide)⟩

/-! Helper facts about the appended cross-sell sentence. -/

theorem crossSell_append_contains (b : String) :
    strContains (b ++ " " ++ crossSellText) crossSellText = true := by
  rw [strContains_iff]
  have h2 : crossSellText.data <:+ ((b ++ " ") ++ crossSellText).data := by
    rw [String.data_append]
    exact List.suffix_append _ _
  exact List.IsSuffix.isInfix h2

theorem crossSell_append_endsWith (b : String) :
    strEndsWith (b ++ " " ++ crossSellText) "？" = true := by
  rw [strEndsWith_iff]
  have h1 : ("？" : String).data <:+ crossSellText.data := by decide
  have h2 : crossSellText.data <:+ ((b ++ " ") ++ crossSellText).data := by
    rw [String.data_append]
    exact List.suffix_append _ _
  exact h1.trans h2

theorem crossSell_append_ne_empty (b : String) :
    (b ++ " " ++ crossSellText) ≠ "" := by
  intro h
  have hd : ((b ++ " ") ++ crossSellText).data = [] := by
    rw [h]
  rw [String.data_append] at hd
  have := (List.append_eq_nil.mp hd).2
  have hne : crossSellText.data ≠ [] := by decide
  exact hne this

/-- For a target node whose text does not yet contain the suggestion
sentence, the enrichment strips trailing closing punctuation and appends the
sentence once. -/
theorem addCrossSell_eq_append {text nid : String}
    (hmem : nid ∈ targetNodeIds) (hne : text ≠ "")
    (hnc : strContains text crossSellText = false) :
    addCrossSellText text (some nid) =
      (if strEndsWith text "。" || strEndsWith text "！" then rstripSet text ['。', '！']
       else text) ++ " " ++ crossSellText := by
  unfold addCrossSellText
  rw [if_neg hne]
  have hm : (match some nid with
             | some nid => decide (nid ∈ targetNodeIds)
             | none => false) = true := by
    simp [hmem]
  rw [hm, if_neg (by simp), if_neg (by simp [hnc])]
  simp only []
  have hend := crossSell_append_endsWith
    (if strEndsWith text "。" || strEndsWith text "！" then rstripSet text ['。', '！'] else text)
  simp only [List.any_cons, hend, Bool.true_or, Bool.not_true, List.any_nil]
  rw [if_neg (by simp)]

/-- C8 counterexample: a response text of a target node that already names
the companion item 馬刺し赤身 but not the full suggestion sentence still gets
the suggestion appended: the duplicate suppression compares the whole
sentence, not the companion name. -/
theorem cross_sell_duplicate_counterexample :
    strContains "馬刺し赤身は人気です。" "馬刺し赤身" = true ∧
    addCrossSellText "馬刺し赤身は人気です。" (some "tako_karaage") ≠
      "馬刺し赤身は人気です。" := by
  refine ⟨by decide, by decide⟩

/-- C8 amended: duplicate suppression triggers only when the exact
suggestion sentence is already present in the text; for allow-listed nodes
whose text does not contain that sentence (even when the companion item is
named), exactly one suggestion sentence is appended after stripping the
trailing closing punctuation. -/
theorem cross_sell_duplicate_amended (text nid : String) :
    nid ∈ targetNodeIds → text ≠ "" → strContains text crossSellText = false →
    addCrossSellText text (some nid) =
      (if strEndsWith text "。" || strEndsWith text "！" then rstripSet text ['。', '！']
       else text) ++ " " ++ crossSellText ∧
    strContains (addCrossSellText text (some nid)) crossSellText = true := by
  intro h1 h2 h3
  have heq := addCrossSell_eq_append h1 h2 h3
  refine ⟨heq, ?_⟩
  rw [heq]
  exact crossSell_append_contains _

/-- C8 witness: a concrete fried-dish text receives the suggestion once. -/
theorem cross_sell_duplicate_witness :
    addCrossSellText "串カツです。" (some "tako_karaage") =
      (if strEndsWith "串カツです。" "。" || strEndsWith "串カツです。" "！" then
        rstripSet "串カツです。" ['。', '！']
       else "串カツです。") ++ " " ++ crossSellText ∧
    strContains (addCrossSellText "串カツです。" (some "tako_karaage")) crossSellText = true :=
  cross_sell_duplicate_amended "串カツです。" "tako_karaage" (by decide) (by decide) (by decide)

/-- C10: the cross-sell enrichment is idempotent, and it is the identity on
the text for node ids outside the allow-list (or a missing id) and for empty
text. -/
theorem cross_sell_idempotent (text : String) (nodeId : Option String) :
    addCrossSellText (addCrossSellText text nodeId) nodeId =
      addCrossSellText text nodeId ∧
    ((match nodeId with
      | some nid => nid ∉ targetNodeIds
      | none => True) → addCrossSellText text nodeId = text) ∧
    (text = "" → addCrossSellText text nodeId = text) := by
  have hempty : ∀ nid2 : Option String, addCrossSellText "" nid2 = "" := by
    intro nid2
    unfold addCrossSellText
    rw [if_pos rfl]
  have hnotarget : ∀ (t : String),
      (match nodeId with
       | some nid => nid ∉ targetNodeIds
       | none => True) → addCrossSellText t nodeId = t := by
    intro t hm
    by_cases ht : t = ""
    · rw [ht]
      exact hempty nodeId
    · cases nodeId with
      | none => simp [addCrossSellText, ht]
      | some nid =>
        simp only at hm
        simp [addCrossSellText, ht, hm]
  have hcontains : ∀ (t nid : String), strContains t crossSellText = true →
      addCrossSellText t (some nid) = t := by
    intro t nid hc
    by_cases ht : t = ""
    · rw [ht]
      exact hempty (some nid)
    · by_cases hmem : nid ∈ targetNodeIds
      · simp [addCrossSellText, ht, hc, hmem]
      · simp [addCrossSellText, ht, hmem]
  refine ⟨?_, hnotarget text, fun h => by rw [h]; exact hempty nodeId⟩
  by_cases ht : text = ""
  · rw [ht, hempty nodeId, hempty nodeId]
  · rcases hcase : nodeId with _ | nid
    · have h0 : addCrossSellText text nodeId = text :=
        hnotarget text (by rw [hcase]; trivial)
      rw [hcase] at h0
      rw [h0, h0]
    · by_cases hmem : nid ∈ targetNodeIds
      · by_cases hc : strContains text crossSellText = true
        · have h0 : addCrossSellText text (some nid) = text := hcontains text nid hc
          rw [h0, h0]
        · have h0 := addCrossSell_eq_append hmem ht (Bool.not_eq_true _ ▸ hc)
          rw [h0]
          exact hcontains _ nid (crossSell_append_contains _)
      · have h0 : addCrossSellText text nodeId = text :=
          hnotarget text (by rw [hcase]; simpa using hmem)
        rw [hcase] at h0
        rw [h0, h0]

/-- C10 witness: concrete instances of idempotence, the identity outside the
allow-list, and the identity on empty text. -/
theorem cross_sell_idempotent_witness :
    addCrossSellText (addCrossSellText "串カツです。" (some "tako_karaage")) (some "tako_karaage") =
      addCrossSellText "串カツです。" (some "tako_karaage") ∧
    addCrossSellText "串カツです。" (some "x") = "串カツです。" ∧
    addCrossSellText "" (some "tako_karaage") = "" :=
  ⟨(cross_sell_idempotent "串カツです。" (some "tako_karaage")).1,
   (cross_sell_idempotent "串カツです。" (some "x")).2.1 (by decide),
   (cross_sell_idempotent "" (some "tako_karaage")).2.2 rfl⟩

/-- C3 counterexample: with a last good snapshot in the cache but an expired
TTL, a failing Catalog fetch yields the empty dictionary, not the
snapshot. -/
theorem snapshot_counterexample :
    staleState.cache ≠ [] ∧
    (getConversationNodes staleState 20 true true (some "db1") (Except.error "boom")).1 = [] := by
  refine ⟨by decide, by decide⟩

/-- C3 amended: the loader never raises (it is a total function); on a
Catalog failure it returns the empty dictionary whenever the cache is not
fresh, and it serves the cached snapshot only while the TTL is unexpired, in
which case the Catalog is not consulted at all. -/
theorem snapshot_on_failure_amended (st : CNState) (now : Nat) (hc hcf : Bool)
    (dbId : Option String) (msg : String) :
    (cacheFresh st now = false →
      (getConversationNodes st now hc hcf dbId (Except.error msg)).1 = []) ∧
    (cacheFresh st now = true →
      ∀ fetch, getConversationNodes st now hc hcf dbId fetch = (st.cache, st)) := by
  constructor
  · intro hfalse
    unfold getConversationNodes
    rw [if_neg (by simp [hfalse])]
    split
    · rfl
    · rcases dbId with _ | nid
      · rfl
      · split
        · rfl
        · split
          · rfl
          · rfl
  · intro htrue fetch
    unfold getConversationNodes
    rw [if_pos htrue]

/-- C3 witness: the stale state returns empty on failure; the fresh state
returns its snapshot untouched for any fetch outcome. -/
theorem snapshot_witness :
    (getConversationNodes staleState 20 true true (some "db1") (Except.error "boom")).1 = [] ∧
    getConversationNodes freshState 20 true true (some "db1") (Except.error "boom") =
      (freshState.cache, freshState) :=
  ⟨(snapshot_on_failure_amended staleState 20 true true (some "db1") "boom").1 (by decide),
   (snapshot_on_failure_amended freshState 20 true true (some "db1") "boom").2 (by decide)
     (Except.error "boom")⟩

theorem capped_notionNode (o : NotionOracle) (s : GState)
    (h : 20 ≤ s.stepCount.getD 0) :
    notionNode o s =
      handleError { s with stepCount := some (s.stepCount.getD 0 + 1) } overloadMessage := by
  unfold notionNode
  rw [if_pos (by omega)]

theorem fallbackResponse_stepCount (s : GState) :
    (fallbackResponse s).stepCount = s.stepCount := by
  unfold fallbackResponse
  cases hm : s.messages.getLast? with
  | none => rfl
  | some m =>
    by_cases h1 : strContains m "ランチ" = true
    · simp [h1]
    · by_cases h2 : strContains m "夜メニュー" = true
      · simp [h1, h2]
      · by_cases h3 : strContains m "夜のメニュー" = true
        · simp [h1, h2, h3]
        · by_cases h4 : strContains m "ビール" = true
          · simp [h1, h2, h3, h4]
          · by_cases h5 : strContains m "酒" = true
            · simp [h1, h2, h3, h4, h5]
            · simp [h1, h2, h3, h4, h5]

theorem capped_step (o : NotionOracle) (c : GraphPos × GState)
    (h : cappedConfig c) : cappedConfig (graphStep o c) := by
  obtain ⟨p, s⟩ := c
  obtain ⟨hp, hsc⟩ := h
  rcases hp with hp | hp <;> subst hp
  · have hnn := capped_notionNode o s hsc
    have hintent : (notionNode o s).intent = "fallback" := by rw [hnn]; rfl
    have hstep : (notionNode o s).stepCount = some (s.stepCount.getD 0 + 1) := by
      rw [hnn]; rfl
    unfold graphStep
    constructor
    · simp only [routeFromNotion, hintent]
      simp
    · simp only [hstep, Option.getD_some]
      omega
  · unfold graphStep
    exact ⟨Or.inl rfl, by rw [fallbackResponse_stepCount]; exact hsc⟩

/-- C2: once the per-session step counter has reached the hard cap of 20,
the machine never reaches end_flow (the terminal node): the cap branch
routes through the fallback intent straight back into the loop, and the
emitted text is the generic apology rather than the overload message. -/
theorem step_cap_no_terminal (o : NotionOracle) (s : GState) (k : Nat)
    (h : 20 ≤ s.stepCount.getD 0) :
    ((runGraph o k (GraphPos.notionPos, s)).1 = GraphPos.notionPos ∨
     (runGraph o k (GraphPos.notionPos, s)).1 = GraphPos.fallbackPos) ∧
    (runGraph o k (GraphPos.notionPos, s)).1 ≠ GraphPos.endPos ∧
    (runGraph o k (GraphPos.notionPos, s)).1 ≠ GraphPos.finished ∧
    (notionNode o s).response = apologyText ∧
    (notionNode o s).response ≠ overloadMessage ∧
    (notionNode o s).intent = "fallback" := by
  have hinv : ∀ (n : Nat) (c : GraphPos × GState), cappedConfig c →
      cappedConfig (runGraph o n c) := by
    intro n
    induction n with
    | zero => exact fun c hc => hc
    | succ n ih =>
      intro c hc
      exact ih (graphStep o c) (capped_step o c hc)
  have hc0 : cappedConfig (GraphPos.notionPos, s) := ⟨Or.inl rfl, h⟩
  have hres := hinv k (GraphPos.notionPos, s) hc0
  obtain ⟨hpos, _⟩ := hres
  have hnn := capped_notionNode o s h
  refine ⟨hpos, ?_, ?_, by rw [hnn]; rfl,
    by rw [hnn]; show apologyText ≠ overloadMessage; decide, by rw [hnn]; rfl⟩
  · rcases hpos with hp | hp <;> simp [hp]
  · rcases hpos with hp | hp <;> simp [hp]

/-- C2 witness: the capped session never terminates within seven further
transitions and the apology replaces the overload message. -/
theorem step_cap_witness :
    (runGraph demoOracle 7 (GraphPos.notionPos, cappedState)).1 ≠ GraphPos.endPos ∧
    (notionNode demoOracle cappedState).response = apologyText ∧
    (notionNode demoOracle cappedState).intent = "fallback" :=
  ⟨(step_cap_no_terminal demoOracle cappedState 7 (by decide)).2.1,
   (step_cap_no_terminal demoOracle cappedState 7 (by decide)).2.2.2.1,
   (step_cap_no_terminal demoOracle cappedState 7 (by decide)).2.2.2.2.2⟩

/-- C6: when node execution raises (the oracle returns an error), the
boundary converts the turn into the generic apology plus the non-empty safe
default option list with the fallback intent; the embedded node function is
total, so no exception propagates. -/
theorem render_failure_absorbed (o : NotionOracle) (s : GState) (msg : String)
    (hfail : ∀ cid ui, o.runNode cid ui = Except.error msg) :
    (notionNode o s).response = apologyText ∧
    (notionNode o s).options = defaultOptions ∧
    (notionNode o s).options ≠ [] ∧
    (notionNode o s).intent = "fallback" := by
  have hgoal : ∀ (s2 : GState) (m2 : String),
      (handleError s2 m2).response = apologyText ∧
      (handleError s2 m2).options = defaultOptions ∧
      (handleError s2 m2).options ≠ [] ∧
      (handleError s2 m2).intent = "fallback" := by
    intro s2 m2
    refine ⟨rfl, rfl, ?_, rfl⟩
    show defaultOptions ≠ []
    decide
  have hred : ∃ s2 m2, notionNode o s = handleError s2 m2 := by
    unfold notionNode
    by_cases hcap : 20 < s.stepCount.getD 0 + 1
    · rw [if_pos hcap]
      exact ⟨_, _, rfl⟩
    · rw [if_neg hcap]
      by_cases hcur : s.currentNodeId = ""
      · cases hst : o.getStartNode with
        | none =>
          exact ⟨{ s with stepCount := some (s.stepCount.getD 0 + 1) },
            "開始ノードが見つかりません", by simp [hcur, hst]⟩
        | some start =>
          exact ⟨{ s with stepCount := some (s.stepCount.getD 0 + 1),
                          currentNodeId := start.nodeId },
            "システムエラー: " ++ msg, by simp [hcur, hst, hfail]⟩
      · exact ⟨{ s with stepCount := some (s.stepCount.getD 0 + 1) },
          "システムエラー: " ++ msg, by simp [hcur, hfail]⟩
  obtain ⟨s2, m2, heq⟩ := hred
  rw [heq]
  exact hgoal s2 m2

/-- C6 witness: with a failing oracle and the default session state, the
turn renders the apology and the three default options. -/
theorem render_failure_witness :
    (notionNode demoOracle {}).response = apologyText ∧
    (notionNode demoOracle {}).options = defaultOptions ∧
    (notionNode demoOracle {}).options ≠ [] ∧
    (notionNode demoOracle {}).intent = "fallback" :=
  render_failure_absorbed demoOracle {} "x" (fun _ _ => rfl)

/-- C5: the proactive gate pushes at every hour of the day: hour 3 lies
outside both the lunch window (11 to 14) and the dinner window described in
the source comments (17 to 22), yet the time-band classification calls it
dinner and the gate pushes the dinner suggestion with should-push set; the
skip branch is unreachable because no hour below 24 maps to the other
band. -/
theorem proactive_always_pushes :
    timeZoneOf 3 = "dinner" ∧
    (proactiveRecommend 3 1 {}).shouldPush = true ∧
    (proactiveRecommend 3 1 {}).response ≠ "" ∧
    ((List.range 24).all fun h => !(timeZoneOf h == "other")) = true := by
  refine ⟨rfl, rfl, by decide, by decide⟩
